import Mathlib

/-!
Shallow embedding of `src/document.rs`: a nom-based parser for a small
Gemtext-like markup language.

Modelling conventions:
* A Rust `&str` slice is a `List Char`.
* A nom parser `Fn(&str) -> IResult<&str, T>` becomes
  `List Char → Option (T × List Char)`, where the pair holds the parsed
  output together with the *remaining* input, and `none` is any nom error
  (the error contents are never inspected by the source).
* `Document::try_from : &str -> Result<Document, String>` becomes
  `Option Document`; `none` is the single `ParseFailure` error case.
* Rust `level.len() as u8` is the truncating cast, modelled as `% 256`.
-/

/-! ## Character classes used by the source -/

/-- The characters recognised by nom's `space0` / `space1`: space and tab. -/
def isSpaceTab (c : Char) : Bool :=
  c = ' ' || c = '\t'

/-- Rust `char::is_ascii_whitespace`: space, tab, newline, carriage return,
form feed. Used by `take_till` in `Element::link_with_text`. -/
def isAsciiWhitespace (c : Char) : Bool :=
  c = ' ' || c = '\t' || c = '\n' || c = '\r' || c = '\x0C'

/-- Rust `char::is_whitespace`: the Unicode `White_Space` property.
Used by `str::trim`. -/
def rustIsWhitespace (c : Char) : Bool :=
  c = ' ' || ('\t' ≤ c && c ≤ '\r') || c.val = 0x85 || c.val = 0xA0 ||
  c.val = 0x1680 || (0x2000 ≤ c.val && c.val ≤ 0x200A) ||
  c.val = 0x2028 || c.val = 0x2029 || c.val = 0x202F ||
  c.val = 0x205F || c.val = 0x3000

/-- Rust `str::trim`: strip leading and trailing whitespace. -/
def trim (l : List Char) : List Char :=
  ((l.dropWhile rustIsWhitespace).reverse.dropWhile rustIsWhitespace).reverse

/-- Helper for `rustLines`: strip one trailing `'\r'` from a segment whose
`'\n'` terminator was split off — Rust `str::lines` treats `"\r\n"` as a
single line ending. -/
def stripTrailingCR (l : List Char) : List Char :=
  if l.getLast? = some '\r' then l.dropLast else l

/-- Helper for `rustLines`: strip the trailing `'\r'` of every segment
except the last.  Used for content that does not end in `'\n'`: the final
segment has no line terminator there, so a bare trailing `'\r'` is kept,
as in Rust where the last line of `"foo\r\nbar\n\nbaz\r".lines()` is
`"baz\r"`. -/
def rustLinesAux : List (List Char) → List (List Char)
  | [] => []
  | [seg] => [seg]
  | seg :: rest => stripTrailingCR seg :: rustLinesAux rest

/-- Split a character list at every `'\n'`, keeping the (possibly empty)
segments between the newlines.  `splitNewline` of the empty list is `[[]]`,
matching `"".split('\n')`. -/
def splitNewline : List Char → List (List Char)
  | [] => [[]]
  | c :: rest =>
    if c = '\n' then [] :: splitNewline rest
    else
      match splitNewline rest with
      | [] => [[c]]
      | s :: ss => (c :: s) :: ss

/-- Rust `str::lines()`: split on `'\n'`; a final trailing newline does not
produce a trailing empty line; a `'\r'` immediately before a split-off
`'\n'` is stripped, while a bare trailing `'\r'` on an unterminated final
line is kept.  When the content ends in `'\n'` every remaining segment was
newline-terminated, so all are stripped; otherwise the last one is not. -/
def rustLines (content : List Char) : List (List Char) :=
  if content.isEmpty then []
  else
    let parts := splitNewline content
    if content.getLast? = some '\n' then parts.dropLast.map stripTrailingCR
    else rustLinesAux parts

/-! ## The nom combinators used by the source -/

/-- nom `tag(t)`: succeed iff `t` is a literal prefix of the input,
returning the tag and the rest. -/
def tag (t : List Char) (input : List Char) : Option (List Char × List Char) :=
  if t.isPrefixOf input then some (t, input.drop t.length) else none

/-- nom `take_until(t)`: scan forward for the *first* occurrence of the
substring `t`; return everything before it, leaving `t` itself unconsumed.
Fail if `t` does not occur. -/
def take_until (t : List Char) : List Char → Option (List Char × List Char)
  | [] => if t.isPrefixOf ([] : List Char) then some ([], []) else none
  | c :: rest =>
    if t.isPrefixOf (c :: rest) then some ([], c :: rest)
    else
      match take_until t rest with
      | some (pre, post) => some (c :: pre, post)
      | none => none

/-- nom `take_till(cond)`: consume characters until `cond` holds (possibly
zero); never fails.  Returns (consumed, rest). -/
def take_till (cond : Char → Bool) (input : List Char) : List Char × List Char :=
  (input.takeWhile (fun c => !cond c), input.dropWhile (fun c => !cond c))

/-- nom `space0`: consume zero or more spaces/tabs; never fails.
Returns (consumed, rest). -/
def space0 (input : List Char) : List Char × List Char :=
  (input.takeWhile isSpaceTab, input.dropWhile isSpaceTab)

/-- nom `space1`: consume one or more spaces/tabs; fails when the input does
not start with a space or tab. -/
def space1 (input : List Char) : Option (List Char × List Char) :=
  if (input.takeWhile isSpaceTab).isEmpty then none
  else some (input.takeWhile isSpaceTab, input.dropWhile isSpaceTab)

/-! ## The data model (`enum Element`, `struct Document`) -/

/-- `enum Element` from the source.  `Heading.level` is a Rust `u8`; it is
kept as a `Nat` here and every construction site applies the `% 256`
truncation of the `as u8` cast. -/
inductive Element where
  | Text (line : String)
  | Link (url : String) (text : Option String)
  | Preformatted (caption : Option String) (lines : List String)
  | Heading (level : Nat) (text : String)
  | UnorderedListItem (text : String)
  | Quote (text : String)
deriving DecidableEq, Repr

/-- `struct Document(pub Vec<Element>)`. -/
structure Document where
  elements : List Element
deriving DecidableEq, Repr

namespace Element

/-- `Element::text`: `many1(none_of("\n"))`, i.e. one or more non-newline
characters (the maximal such run), trimmed. -/
def text (input : List Char) : Option (Element × List Char) :=
  let chars := input.takeWhile (fun c => c != '\n')
  if chars.isEmpty then none
  else some (Element.Text (String.mk (trim chars)), input.dropWhile (fun c => c != '\n'))

/-- `Element::link_without_text`: `preceded((tag("=>"), space0), take_until("\n"))`. -/
def link_without_text (input : List Char) : Option (Element × List Char) :=
  match tag ("=>".toList) input with
  | none => none
  | some (_, r1) =>
    match take_until ("\n".toList) (space0 r1).2 with
    | none => none
    | some (line, rest) =>
      some (Element.Link (String.mk (trim line)) none, rest)

/-- `Element::link_with_text`: `preceded((tag("=>"), space0),
(take_till(is_ascii_whitespace), preceded(space1, take_until("\n"))))`. -/
def link_with_text (input : List Char) : Option (Element × List Char) :=
  match tag ("=>".toList) input with
  | none => none
  | some (_, r1) =>
    let r2 := (space0 r1).2
    let url := (take_till isAsciiWhitespace r2).1
    let r3 := (take_till isAsciiWhitespace r2).2
    match space1 r3 with
    | none => none
    | some (_, r4) =>
      match take_until ("\n".toList) r4 with
      | none => none
      | some (t, rest) =>
        some (Element.Link (String.mk (trim url)) (some (String.mk (trim t))), rest)

/-- `Element::link`: `link_with_text` or else `link_without_text`. -/
def link (input : List Char) : Option (Element × List Char) :=
  match link_with_text input with
  | some r => some r
  | none => link_without_text input

/-- `Element::preformatted_start`: `preceded(tag("```"),
opt(preceded(space0, take_until("\n"))))`, then a blank caption is
normalised to `None`.  `opt` consumes nothing when its inner parser fails. -/
def preformatted_start (input : List Char) : Option (Option String × List Char) :=
  match tag ("```".toList) input with
  | none => none
  | some (_, r1) =>
    match take_until ("\n".toList) (space0 r1).2 with
    | some (c, rest) =>
      let t := trim c
      some ((if t.isEmpty then none else some (String.mk t)), rest)
    | none => some (none, r1)

/-- `Element::preformatted`: the opening fence line, a newline, the content
up to the first closing fence (`take_until("```")`), the closing fence; the
content becomes `content.lines()`. -/
def preformatted (input : List Char) : Option (Element × List Char) :=
  match preformatted_start input with
  | none => none
  | some (caption, r1) =>
    match tag ("\n".toList) r1 with
    | none => none
    | some (_, r2) =>
      match take_until ("```".toList) r2 with
      | none => none
      | some (content, r3) =>
        match tag ("```".toList) r3 with
        | none => none
        | some (_, rest) =>
          some (Element.Preformatted caption ((rustLines content).map String.mk), rest)

/-- `Element::heading`: `(many1(tag("#")), take_until("\n"))`.
`many1(tag("#"))` matches the maximal run of leading `'#'` characters and
fails when there is none; its collected length is cast with `as u8`. -/
def heading (input : List Char) : Option (Element × List Char) :=
  let level := (input.takeWhile (fun c => c == '#')).length
  if level = 0 then none
  else
    match take_until ("\n".toList) (input.drop level) with
    | none => none
    | some (t, rest) =>
      some (Element.Heading (level % 256) (String.mk (trim t)), rest)

/-- `Element::quote`: `preceded(tag(">"), take_until("\n"))`. -/
def quote (input : List Char) : Option (Element × List Char) :=
  match tag (">".toList) input with
  | none => none
  | some (_, r1) =>
    match take_until ("\n".toList) r1 with
    | none => none
    | some (t, rest) =>
      some (Element.Quote (String.mk (trim t)), rest)

/-- `Element::unordered_list_item`: `preceded(tag("*"), take_until("\n"))`. -/
def unordered_list_item (input : List Char) : Option (Element × List Char) :=
  match tag ("*".toList) input with
  | none => none
  | some (_, r1) =>
    match take_until ("\n".toList) r1 with
    | none => none
    | some (t, rest) =>
      some (Element.UnorderedListItem (String.mk (trim t)), rest)

/-- `Element::from_str`: the ordered-alternative dispatcher
(`preformatted` / `link` / `heading` / `unordered_list_item` / `quote` /
`text`, first success wins). -/
def from_str (input : List Char) : Option (Element × List Char) :=
  match preformatted input with
  | some r => some r
  | none =>
    match link input with
    | some r => some r
    | none =>
      match heading input with
      | some r => some r
      | none =>
        match unordered_list_item input with
        | some r => some r
        | none =>
          match quote input with
          | some r => some r
          | none => text input

end Element

/-- `many0(tag("\n"))`: the blank-separator skip between elements. -/
def dropNewlines (l : List Char) : List Char :=
  l.dropWhile (fun c => c == '\n')

/-- The `many0(terminated(Element::from_str, many0(tag("\n"))))` loop of
`Document::from_str`.  nom's `many0` stops at the first failure of the inner
parser and never fails itself.  It is modelled with explicit fuel; every
successful `Element::from_str` consumes at least one character (theorem
`from_str_consumes` below), so fuel `input.length + 1` never runs out
(theorem `docElems_fuel_high`). -/
def docElems : Nat → List Char → Option (List Element × List Char)
  | 0, _ => none
  | fuel + 1, input =>
    match Element.from_str input with
    | none => some ([], input)
    | some (e, rest) =>
      match docElems fuel (dropNewlines rest) with
      | some (es, r2) => some (e :: es, r2)
      | none => none

/-- `Document::from_str`: `terminated(many0(terminated(Element::from_str,
many0(tag("\n")))), eof)` — the whole input must be consumed. -/
def Document.from_str (input : List Char) : Option (Document × List Char) :=
  match docElems (input.length + 1) input with
  | none => none
  | some (es, rest) =>
    if rest.isEmpty then some (⟨es⟩, rest) else none

/-- `impl TryFrom<&str> for Document`: append a trailing newline when the
input does not already end in one, then run `Document::from_str`. -/
def Document.try_from (s : String) : Option Document :=
  let l := s.toList
  let l := if l.getLast? = some '\n' then l else l ++ "\n".toList
  match Document.from_str l with
  | none => none
  | some (d, _) => some d

/-- The spec's single entry point `parse`. -/
def parse (s : String) : Option Document :=
  Document.try_from s

/-! ## Basic facts about the combinators -/

theorem getLast?_mem' {α : Type} {l : List α} {c : α} (h : l.getLast? = some c) :
    c ∈ l := by
  induction l with
  | nil => simp at h
  | cons a l ih =>
    cases l with
    | nil => simp_all
    | cons b m =>
      rw [List.getLast?_cons_cons] at h
      exact List.mem_cons_of_mem a (ih h)

theorem tag_some_iff {t input out rest : List Char} :
    tag t input = some (out, rest) ↔ out = t ∧ input = t ++ rest := by
  unfold tag
  split
  case isTrue h =>
    obtain ⟨s, rfl⟩ := List.isPrefixOf_iff_prefix.mp h
    rw [List.drop_left]
    simp only [Option.some.injEq, Prod.mk.injEq, List.append_right_inj]
    exact ⟨fun ⟨a, b⟩ => ⟨a.symm, b⟩, fun ⟨a, b⟩ => ⟨a.symm, b⟩⟩
  case isFalse h =>
    constructor
    · intro h'; cases h'
    · rintro ⟨rfl, rfl⟩
      exact absurd (List.isPrefixOf_iff_prefix.mpr (List.prefix_append out rest)) h

theorem tag_none_of_ne_head {c d : Char} {t r : List Char} (h : c ≠ d) :
    tag (c :: t) (d :: r) = none := by
  unfold tag
  rw [if_neg]
  intro hp
  exact h (List.cons_prefix_cons.mp (List.isPrefixOf_iff_prefix.mp hp)).1

theorem take_until_spec {t : List Char} :
    ∀ {input pre post : List Char}, take_until t input = some (pre, post) →
      input = pre ++ post ∧ t <+: post ∧
      ∀ p q, input = p ++ q → t <+: q → pre.length ≤ p.length := by
  intro input
  induction input with
  | nil =>
    intro pre post h
    unfold take_until at h
    split at h
    case isTrue hp =>
      injection h with h
      injection h with h1 h2
      subst h1; subst h2
      exact ⟨rfl, List.isPrefixOf_iff_prefix.mp hp, fun p q _ _ => Nat.zero_le _⟩
    case isFalse => cases h
  | cons c rest ih =>
    intro pre post h
    unfold take_until at h
    split at h
    case isTrue hp =>
      injection h with h
      injection h with h1 h2
      subst h1; subst h2
      exact ⟨rfl, List.isPrefixOf_iff_prefix.mp hp, fun p q _ _ => Nat.zero_le _⟩
    case isFalse hp =>
      cases heq : take_until t rest with
      | none => rw [heq] at h; cases h
      | some pr =>
        obtain ⟨a, b⟩ := pr
        rw [heq] at h
        injection h with h
        injection h with h1 h2
        subst h1; subst h2
        obtain ⟨ih1, ih2, ih3⟩ := ih heq
        refine ⟨by rw [List.cons_append, ← ih1], ih2, ?_⟩
        intro p q hpq htq
        cases p with
        | nil =>
          exfalso
          simp only [List.nil_append] at hpq
          exact hp (List.isPrefixOf_iff_prefix.mpr (hpq ▸ htq))
        | cons x p' =>
          injection hpq with hx hrest
          simp only [List.length_cons, Nat.add_le_add_iff_right]
          exact ih3 p' q hrest htq

theorem take_until_fails_of_absent {t : List Char} :
    ∀ {input : List Char}, ¬ (t <:+: input) → take_until t input = none := by
  intro input
  induction input with
  | nil =>
    intro h
    unfold take_until
    rw [if_neg]
    intro hp
    exact h ((List.isPrefixOf_iff_prefix.mp hp).isInfix)
  | cons c rest ih =>
    intro h
    unfold take_until
    rw [if_neg, ih]
    · intro hi
      exact h (hi.trans (List.suffix_cons c rest).isInfix)
    · intro hp
      exact h (List.isPrefixOf_iff_prefix.mp hp).isInfix

theorem take_until_singleton_of_mem {a : Char} :
    ∀ {input : List Char}, a ∈ input →
      ∃ pre post, take_until [a] input = some (pre, post) := by
  intro input
  induction input with
  | nil => intro h; cases h
  | cons c rest ih =>
    intro h
    unfold take_until
    by_cases hc : [a].isPrefixOf (c :: rest) = true
    · rw [if_pos hc]; exact ⟨[], c :: rest, rfl⟩
    · rw [if_neg hc]
      have hac : a ≠ c := by
        intro h'
        apply hc
        exact List.isPrefixOf_iff_prefix.mpr (List.cons_prefix_cons.mpr ⟨h', List.nil_prefix⟩)
      have hmem : a ∈ rest := by
        cases List.mem_cons.mp h with
        | inl h' => exact absurd h' hac
        | inr h' => exact h'
      obtain ⟨pre, post, hp⟩ := ih hmem
      rw [hp]
      exact ⟨c :: pre, post, rfl⟩

theorem take_until_pre_no_occurrence {t input pre post : List Char} (ht : t ≠ [])
    (h : take_until t input = some (pre, post)) : ¬ (t <:+: pre) := by
  obtain ⟨h1, _, h3⟩ := take_until_spec h
  rintro ⟨s, u, rfl⟩
  have hsplit : input = s ++ (t ++ (u ++ post)) := by
    rw [h1]; simp [List.append_assoc]
  have hle := h3 s (t ++ (u ++ post)) hsplit (List.prefix_append t (u ++ post))
  have htlen : 0 < t.length := List.length_pos.mpr ht
  simp only [List.length_append] at hle
  omega

theorem take_until_post_suffix {t input pre post : List Char}
    (h : take_until t input = some (pre, post)) : post <:+ input :=
  ⟨pre, (take_until_spec h).1.symm⟩

theorem take_until_append_singleton {a : Char} :
    ∀ {l : List Char} (r : List Char), a ∉ l →
      take_until [a] (l ++ a :: r) = some (l, a :: r) := by
  intro l
  induction l with
  | nil =>
    intro r _
    show take_until [a] (a :: r) = some ([], a :: r)
    unfold take_until
    rw [if_pos]
    exact List.isPrefixOf_iff_prefix.mpr (List.cons_prefix_cons.mpr ⟨rfl, List.nil_prefix⟩)
  | cons c lrest ih =>
    intro r h
    have hac : a ≠ c := fun h' => h (h' ▸ List.mem_cons_self c lrest)
    have hnotmem : a ∉ lrest := fun h' => h (List.mem_cons_of_mem c h')
    show take_until [a] (c :: (lrest ++ a :: r)) = some (c :: lrest, a :: r)
    unfold take_until
    rw [if_neg, ih r hnotmem]
    intro hp
    exact hac (List.cons_prefix_cons.mp (List.isPrefixOf_iff_prefix.mp hp)).1

theorem takeWhile_append_of_all {p : Char → Bool} :
    ∀ {l r : List Char}, (∀ c ∈ l, p c = true) →
      (∀ c, r.head? = some c → p c = false) →
      (l ++ r).takeWhile p = l := by
  intro l
  induction l with
  | nil =>
    intro r _ hr
    cases r with
    | nil => rfl
    | cons c r' =>
      rw [List.nil_append]
      exact List.takeWhile_cons_of_neg (by simp [hr c rfl])
  | cons c l' ih =>
    intro r hl hr
    rw [List.cons_append, List.takeWhile_cons_of_pos (hl c (List.mem_cons_self c l'))]
    rw [ih (fun d hd => hl d (List.mem_cons_of_mem c hd)) hr]

theorem dropWhile_append_of_all {p : Char → Bool} :
    ∀ {l r : List Char}, (∀ c ∈ l, p c = true) →
      (∀ c, r.head? = some c → p c = false) →
      (l ++ r).dropWhile p = r := by
  intro l
  induction l with
  | nil =>
    intro r _ hr
    cases r with
    | nil => rfl
    | cons c r' =>
      rw [List.nil_append]
      exact List.dropWhile_cons_of_neg (by simp [hr c rfl])
  | cons c l' ih =>
    intro r hl hr
    rw [List.cons_append, List.dropWhile_cons_of_pos (hl c (List.mem_cons_self c l'))]
    exact ih (fun d hd => hl d (List.mem_cons_of_mem c hd)) hr

theorem mem_dropWhile_of_mem {p : Char → Bool} {a : Char} :
    ∀ {l : List Char}, a ∈ l → p a = false → a ∈ l.dropWhile p := by
  intro l
  induction l with
  | nil => intro h; cases h
  | cons c rest ih =>
    intro h hpa
    by_cases hc : p c = true
    · rw [List.dropWhile_cons_of_pos hc]
      cases List.mem_cons.mp h with
      | inl h' => subst h'; rw [hpa] at hc; cases hc
      | inr h' => exact ih h' hpa
    · rw [List.dropWhile_cons_of_neg hc]
      exact h

/-! ## Failure of recognizers by leading character -/

theorem preformatted_start_none_of_head {d : Char} {r : List Char} (h : d ≠ '\x60') :
    Element.preformatted_start (d :: r) = none := by
  unfold Element.preformatted_start
  rw [show ("```".toList) = '\x60' :: '\x60' :: '\x60' :: ([] : List Char) from rfl]
  rw [tag_none_of_ne_head (fun h' => h h'.symm)]

theorem preformatted_none_of_head {d : Char} {r : List Char} (h : d ≠ '\x60') :
    Element.preformatted (d :: r) = none := by
  unfold Element.preformatted
  rw [preformatted_start_none_of_head h]

theorem link_with_text_none_of_head {d : Char} {r : List Char} (h : d ≠ '=') :
    Element.link_with_text (d :: r) = none := by
  unfold Element.link_with_text
  rw [show ("=>".toList) = '=' :: '>' :: ([] : List Char) from rfl]
  rw [tag_none_of_ne_head (fun h' => h h'.symm)]

theorem link_without_text_none_of_head {d : Char} {r : List Char} (h : d ≠ '=') :
    Element.link_without_text (d :: r) = none := by
  unfold Element.link_without_text
  rw [show ("=>".toList) = '=' :: '>' :: ([] : List Char) from rfl]
  rw [tag_none_of_ne_head (fun h' => h h'.symm)]

theorem link_none_of_head {d : Char} {r : List Char} (h : d ≠ '=') :
    Element.link (d :: r) = none := by
  unfold Element.link
  rw [link_with_text_none_of_head h, link_without_text_none_of_head h]

theorem heading_none_of_head {d : Char} {r : List Char} (h : d ≠ '#') :
    Element.heading (d :: r) = none := by
  unfold Element.heading
  rw [List.takeWhile_cons_of_neg (by simp [h])]
  rfl

theorem unordered_list_item_none_of_head {d : Char} {r : List Char} (h : d ≠ '*') :
    Element.unordered_list_item (d :: r) = none := by
  unfold Element.unordered_list_item
  rw [show ("*".toList) = '*' :: ([] : List Char) from rfl]
  rw [tag_none_of_ne_head (fun h' => h h'.symm)]

theorem quote_none_of_head {d : Char} {r : List Char} (h : d ≠ '>') :
    Element.quote (d :: r) = none := by
  unfold Element.quote
  rw [show (">".toList) = '>' :: ([] : List Char) from rfl]
  rw [tag_none_of_ne_head (fun h' => h h'.symm)]

theorem text_none_newline {r : List Char} : Element.text ('\n' :: r) = none := by
  unfold Element.text
  rw [List.takeWhile_cons_of_neg (by simp)]
  rfl

theorem text_some_of_head {d : Char} {r : List Char} (h : d ≠ '\n') :
    Element.text (d :: r) =
      some (Element.Text (String.mk (trim (d :: r.takeWhile (fun c => c != '\n')))),
            r.dropWhile (fun c => c != '\n')) := by
  unfold Element.text
  rw [List.takeWhile_cons_of_pos (by simp [h]), List.dropWhile_cons_of_pos (by simp [h])]
  rfl

/-- On an input whose first character is a newline no recognizer matches:
every tagged rule needs its marker and the `text` fallback needs at least one
non-newline character. -/
theorem from_str_newline {r : List Char} : Element.from_str ('\n' :: r) = none := by
  unfold Element.from_str
  rw [preformatted_none_of_head (by decide), link_none_of_head (by decide),
    heading_none_of_head (by decide), unordered_list_item_none_of_head (by decide),
    quote_none_of_head (by decide), text_none_newline]

theorem from_str_nil : Element.from_str ([] : List Char) = none := by rfl

/-! ## Every successful recognizer consumes input -/

theorem take_until_post_length {t input pre post : List Char}
    (h : take_until t input = some (pre, post)) : post.length ≤ input.length :=
  (take_until_post_suffix h).length_le

theorem space0_snd_length (l : List Char) : (space0 l).2.length ≤ l.length :=
  (List.dropWhile_suffix isSpaceTab).length_le

theorem space1_some_length {l a r : List Char} (h : space1 l = some (a, r)) :
    r.length ≤ l.length := by
  unfold space1 at h
  split at h
  · cases h
  · injection h with h
    injection h with h1 h2
    subst h2
    exact (List.dropWhile_suffix isSpaceTab).length_le

theorem preformatted_start_suffix {input : List Char} {cap : Option String} {r1 : List Char}
    (h : Element.preformatted_start input = some (cap, r1)) :
    r1.length + 3 ≤ input.length ∧ r1 <:+ input := by
  unfold Element.preformatted_start at h
  cases htag : tag ("```".toList) input with
  | none => rw [htag] at h; cases h
  | some pr =>
    obtain ⟨o, r0⟩ := pr
    rw [htag] at h
    dsimp only at h
    obtain ⟨_, hin⟩ := tag_some_iff.mp htag
    have hr0len : r0.length + 3 = input.length := by
      rw [hin]; simp
    have hr0suf : r0 <:+ input := ⟨"```".toList, hin.symm⟩
    cases hu : take_until ("\n".toList) (space0 r0).2 with
    | some pr2 =>
      obtain ⟨c, rest⟩ := pr2
      rw [hu] at h
      dsimp only at h
      injection h with h
      injection h with h1 h2
      have hsuf : r1 <:+ r0 := by
        rw [← h2]
        exact (take_until_post_suffix hu).trans (List.dropWhile_suffix isSpaceTab)
      exact ⟨by have := hsuf.length_le; omega, hsuf.trans hr0suf⟩
    | none =>
      rw [hu] at h
      dsimp only at h
      injection h with h
      injection h with h1 h2
      subst h2
      exact ⟨by omega, hr0suf⟩

theorem preformatted_consumes {input : List Char} {e : Element} {rest : List Char}
    (h : Element.preformatted input = some (e, rest)) : rest.length < input.length := by
  unfold Element.preformatted at h
  cases hs : Element.preformatted_start input with
  | none => rw [hs] at h; cases h
  | some pr =>
    obtain ⟨cap, r1⟩ := pr
    rw [hs] at h
    dsimp only at h
    obtain ⟨hlen1, _⟩ := preformatted_start_suffix hs
    cases ht : tag ("\n".toList) r1 with
    | none => rw [ht] at h; cases h
    | some pr2 =>
      obtain ⟨o, r2⟩ := pr2
      rw [ht] at h
      dsimp only at h
      obtain ⟨_, hr1⟩ := tag_some_iff.mp ht
      have hlen2 : r2.length + 1 = r1.length := by rw [hr1]; simp
      cases hu : take_until ("```".toList) r2 with
      | none => rw [hu] at h; cases h
      | some pr3 =>
        obtain ⟨content, r3⟩ := pr3
        rw [hu] at h
        dsimp only at h
        have hlen3 : r3.length ≤ r2.length := take_until_post_length hu
        cases ht2 : tag ("```".toList) r3 with
        | none => rw [ht2] at h; cases h
        | some pr4 =>
          obtain ⟨o2, r4⟩ := pr4
          rw [ht2] at h
          dsimp only at h
          obtain ⟨_, hr3⟩ := tag_some_iff.mp ht2
          have hlen4 : r4.length + 3 = r3.length := by rw [hr3]; simp
          injection h with h
          injection h with h1 h2
          subst h2
          omega

theorem link_without_text_consumes {input : List Char} {e : Element} {rest : List Char}
    (h : Element.link_without_text input = some (e, rest)) : rest.length < input.length := by
  unfold Element.link_without_text at h
  cases htag : tag ("=>".toList) input with
  | none => rw [htag] at h; cases h
  | some pr =>
    obtain ⟨o, r1⟩ := pr
    rw [htag] at h
    dsimp only at h
    obtain ⟨_, hin⟩ := tag_some_iff.mp htag
    have hr1len : r1.length + 2 = input.length := by rw [hin]; simp
    cases hu : take_until ("\n".toList) (space0 r1).2 with
    | none => rw [hu] at h; cases h
    | some pr2 =>
      obtain ⟨line, r2⟩ := pr2
      rw [hu] at h
      dsimp only at h
      injection h with h
      injection h with h1 h2
      subst h2
      have := (take_until_post_length hu).trans (space0_snd_length r1)
      omega

theorem link_with_text_consumes {input : List Char} {e : Element} {rest : List Char}
    (h : Element.link_with_text input = some (e, rest)) : rest.length < input.length := by
  unfold Element.link_with_text at h
  cases htag : tag ("=>".toList) input with
  | none => rw [htag] at h; cases h
  | some pr =>
    obtain ⟨o, r1⟩ := pr
    rw [htag] at h
    dsimp only at h
    obtain ⟨_, hin⟩ := tag_some_iff.mp htag
    have hr1len : r1.length + 2 = input.length := by rw [hin]; simp
    cases hsp : space1 (take_till isAsciiWhitespace (space0 r1).2).2 with
    | none => rw [hsp] at h; cases h
    | some pr2 =>
      obtain ⟨a, r4⟩ := pr2
      rw [hsp] at h
      dsimp only at h
      have h4 : r4.length ≤ r1.length := by
        have h5 := space1_some_length hsp
        have h6 : (take_till isAsciiWhitespace (space0 r1).2).2.length ≤ r1.length := by
          have h7 : ((space0 r1).2.dropWhile (fun c => !isAsciiWhitespace c)).length ≤
              (space0 r1).2.length :=
            (List.dropWhile_suffix _).length_le
          have h8 := space0_snd_length r1
          unfold take_till
          dsimp only
          omega
        omega
      cases hu : take_until ("\n".toList) r4 with
      | none => rw [hu] at h; cases h
      | some pr3 =>
        obtain ⟨t, r5⟩ := pr3
        rw [hu] at h
        dsimp only at h
        injection h with h
        injection h with h1 h2
        subst h2
        have := take_until_post_length hu
        omega

theorem link_consumes {input : List Char} {e : Element} {rest : List Char}
    (h : Element.link input = some (e, rest)) : rest.length < input.length := by
  unfold Element.link at h
  cases hw : Element.link_with_text input with
  | some r =>
    rw [hw] at h
    injection h with h
    subst h
    exact link_with_text_consumes hw
  | none =>
    rw [hw] at h
    exact link_without_text_consumes h

theorem heading_consumes {input : List Char} {e : Element} {rest : List Char}
    (h : Element.heading input = some (e, rest)) : rest.length < input.length := by
  unfold Element.heading at h
  dsimp only at h
  split at h
  · cases h
  case isFalse hne =>
    cases hu : take_until ("\n".toList)
        (input.drop (input.takeWhile (fun c => c == '#')).length) with
    | none => rw [hu] at h; cases h
    | some pr =>
      obtain ⟨t, r⟩ := pr
      rw [hu] at h
      dsimp only at h
      injection h with h
      injection h with h1 h2
      subst h2
      have hlev : 0 < (input.takeWhile (fun c => c == '#')).length := Nat.pos_of_ne_zero hne
      have hdrop := take_until_post_length hu
      have hdlen : (input.drop (input.takeWhile (fun c => c == '#')).length).length =
          input.length - (input.takeWhile (fun c => c == '#')).length := by
        simp
      have htw : (input.takeWhile (fun c => c == '#')).length ≤ input.length :=
        (List.takeWhile_sublist _).length_le
      omega

theorem quote_consumes {input : List Char} {e : Element} {rest : List Char}
    (h : Element.quote input = some (e, rest)) : rest.length < input.length := by
  unfold Element.quote at h
  cases htag : tag (">".toList) input with
  | none => rw [htag] at h; cases h
  | some pr =>
    obtain ⟨o, r1⟩ := pr
    rw [htag] at h
    dsimp only at h
    obtain ⟨_, hin⟩ := tag_some_iff.mp htag
    have hlen : r1.length + 1 = input.length := by rw [hin]; simp
    cases hu : take_until ("\n".toList) r1 with
    | none => rw [hu] at h; cases h
    | some pr2 =>
      obtain ⟨t, r2⟩ := pr2
      rw [hu] at h
      dsimp only at h
      injection h with h
      injection h with h1 h2
      subst h2
      have := take_until_post_length hu
      omega

theorem unordered_list_item_consumes {input : List Char} {e : Element} {rest : List Char}
    (h : Element.unordered_list_item input = some (e, rest)) : rest.length < input.length := by
  unfold Element.unordered_list_item at h
  cases htag : tag ("*".toList) input with
  | none => rw [htag] at h; cases h
  | some pr =>
    obtain ⟨o, r1⟩ := pr
    rw [htag] at h
    dsimp only at h
    obtain ⟨_, hin⟩ := tag_some_iff.mp htag
    have hlen : r1.length + 1 = input.length := by rw [hin]; simp
    cases hu : take_until ("\n".toList) r1 with
    | none => rw [hu] at h; cases h
    | some pr2 =>
      obtain ⟨t, r2⟩ := pr2
      rw [hu] at h
      dsimp only at h
      injection h with h
      injection h with h1 h2
      subst h2
      have := take_until_post_length hu
      omega

theorem text_consumes {input : List Char} {e : Element} {rest : List Char}
    (h : Element.text input = some (e, rest)) : rest.length < input.length := by
  unfold Element.text at h
  dsimp only at h
  split at h
  · cases h
  case isFalse hne =>
    injection h with h
    injection h with h1 h2
    subst h2
    have h3 := List.takeWhile_append_dropWhile (fun c => c != '\n') input
    have h4 : 0 < (input.takeWhile (fun c => c != '\n')).length := by
      refine List.length_pos.mpr ?_
      simpa using hne
    have h5 : (input.takeWhile (fun c => c != '\n')).length +
        (input.dropWhile (fun c => c != '\n')).length = input.length := by
      rw [← List.length_append, h3]
    omega

/-- Every successful `Element::from_str` consumes at least one character.
This is what makes the `many0` loop of `Document::from_str` terminate and
justifies running `docElems` with fuel `input.length + 1`. -/
theorem from_str_consumes {input : List Char} {e : Element} {rest : List Char}
    (h : Element.from_str input = some (e, rest)) : rest.length < input.length := by
  unfold Element.from_str at h
  cases h1 : Element.preformatted input with
  | some r =>
    rw [h1] at h; injection h with h; subst h; exact preformatted_consumes h1
  | none =>
    rw [h1] at h
    dsimp only at h
    cases h2 : Element.link input with
    | some r => rw [h2] at h; injection h with h; subst h; exact link_consumes h2
    | none =>
      rw [h2] at h
      dsimp only at h
      cases h3 : Element.heading input with
      | some r => rw [h3] at h; injection h with h; subst h; exact heading_consumes h3
      | none =>
        rw [h3] at h
        dsimp only at h
        cases h4 : Element.unordered_list_item input with
        | some r =>
          rw [h4] at h; injection h with h; subst h
          exact unordered_list_item_consumes h4
        | none =>
          rw [h4] at h
          dsimp only at h
          cases h5 : Element.quote input with
          | some r => rw [h5] at h; injection h with h; subst h; exact quote_consumes h5
          | none => rw [h5] at h; dsimp only at h; exact text_consumes h

/-- With any fuel exceeding the input length, `docElems` computes the same
result: the fuel in `Document.from_str` is irrelevant, so the model agrees
with nom's unbounded `many0`. -/
theorem docElems_fuel_high :
    ∀ (n : Nat) (input : List Char), input.length ≤ n →
      ∀ f g, input.length < f → input.length < g → docElems f input = docElems g input := by
  intro n
  induction n with
  | zero =>
    intro input hlen f g hf hg
    have hnil : input = [] := List.length_eq_zero.mp (Nat.le_zero.mp hlen)
    subst hnil
    obtain ⟨f', rfl⟩ : ∃ f', f = f' + 1 := ⟨f - 1, by omega⟩
    obtain ⟨g', rfl⟩ : ∃ g', g = g' + 1 := ⟨g - 1, by omega⟩
    simp [docElems, from_str_nil]
  | succ n ih =>
    intro input hlen f g hf hg
    obtain ⟨f', rfl⟩ : ∃ f', f = f' + 1 := ⟨f - 1, by omega⟩
    obtain ⟨g', rfl⟩ : ∃ g', g = g' + 1 := ⟨g - 1, by omega⟩
    show docElems (f' + 1) input = docElems (g' + 1) input
    simp only [docElems]
    cases hfs : Element.from_str input with
    | none => rfl
    | some pr =>
      obtain ⟨e, rest⟩ := pr
      dsimp only
      have hcons := from_str_consumes hfs
      have hdn : (dropNewlines rest).length ≤ rest.length :=
        (List.dropWhile_suffix (fun c => c == '\n')).length_le
      rw [ih (dropNewlines rest) (by omega) f' g' (by omega) (by omega)]

/-! ## Plumbing: token normal forms, trim, dispatcher composition -/

theorem tag_self_append (t s : List Char) : tag t (t ++ s) = some (t, s) :=
  tag_some_iff.mpr ⟨rfl, rfl⟩

theorem newline_toList : "\n".toList = ['\n'] := rfl

theorem fence_toList : "```".toList = ['\x60', '\x60', '\x60'] := rfl

theorem spaceTab_rustWs {c : Char} (h : isSpaceTab c = true) :
    rustIsWhitespace c = true := by
  simp only [isSpaceTab, Bool.or_eq_true, decide_eq_true_eq] at h
  rcases h with rfl | rfl <;> decide

theorem spaceTab_asciiWs {c : Char} (h : isSpaceTab c = true) :
    isAsciiWhitespace c = true := by
  simp only [isSpaceTab, Bool.or_eq_true, decide_eq_true_eq] at h
  rcases h with rfl | rfl <;> decide

theorem asciiWs_rustWs {c : Char} (h : isAsciiWhitespace c = true) :
    rustIsWhitespace c = true := by
  simp only [isAsciiWhitespace, Bool.or_eq_true, decide_eq_true_eq] at h
  rcases h with ((((rfl | rfl) | rfl) | rfl) | rfl) <;> decide

theorem dropWhile_eq_self_of_all {p : Char → Bool} {l : List Char}
    (h : ∀ c ∈ l, p c = false) : l.dropWhile p = l := by
  cases l with
  | nil => rfl
  | cons c r =>
    exact List.dropWhile_cons_of_neg (by simp [h c (List.mem_cons_self c r)])

theorem trim_nil_of_all_ws {l : List Char} (h : ∀ c ∈ l, rustIsWhitespace c = true) :
    trim l = [] := by
  unfold trim
  rw [List.dropWhile_eq_nil_iff.mpr h]
  rfl

theorem trim_eq_self_of_no_ws {l : List Char} (h : ∀ c ∈ l, rustIsWhitespace c = false) :
    trim l = l := by
  unfold trim
  rw [dropWhile_eq_self_of_all h, dropWhile_eq_self_of_all
    (fun c hc => h c (List.mem_reverse.mp hc)), List.reverse_reverse]

theorem from_str_eq_text_of_fail {input : List Char}
    (h1 : Element.preformatted input = none) (h2 : Element.link input = none)
    (h3 : Element.heading input = none) (h4 : Element.unordered_list_item input = none)
    (h5 : Element.quote input = none) :
    Element.from_str input = Element.text input := by
  unfold Element.from_str
  rw [h1, h2, h3, h4, h5]

theorem from_str_eq_of_link {input : List Char} {res : Element × List Char}
    (h1 : Element.preformatted input = none) (h2 : Element.link input = some res) :
    Element.from_str input = some res := by
  unfold Element.from_str
  rw [h1, h2]

theorem from_str_eq_of_heading {input : List Char} {res : Element × List Char}
    (h1 : Element.preformatted input = none) (h2 : Element.link input = none)
    (h3 : Element.heading input = some res) :
    Element.from_str input = some res := by
  unfold Element.from_str
  rw [h1, h2, h3]

theorem link_with_text_shape {input : List Char} {el : Element} {rest : List Char}
    (h : Element.link_with_text input = some (el, rest)) :
    ∃ u t', el = Element.Link u (some t') := by
  unfold Element.link_with_text at h
  cases htag : tag ("=>".toList) input with
  | none => rw [htag] at h; cases h
  | some pr =>
    obtain ⟨o, r1⟩ := pr
    rw [htag] at h
    dsimp only at h
    cases hsp : space1 (take_till isAsciiWhitespace (space0 r1).2).2 with
    | none => rw [hsp] at h; cases h
    | some pr2 =>
      obtain ⟨a, r4⟩ := pr2
      rw [hsp] at h
      dsimp only at h
      cases hu : take_until ("\n".toList) r4 with
      | none => rw [hu] at h; cases h
      | some pr3 =>
        obtain ⟨t, r5⟩ := pr3
        rw [hu] at h
        dsimp only at h
        injection h with h
        injection h with h1 h2
        exact ⟨_, _, h1.symm⟩

/-! ## Plumbing: the document loop on the shapes the claims need -/

theorem doc_from_str_head_newline {r : List Char} :
    Document.from_str ('\n' :: r) = none := by
  unfold Document.from_str
  simp only [List.length_cons]
  simp only [docElems, from_str_newline]
  rfl

theorem doc_single {input : List Char} {e : Element}
    (h : Element.from_str input = some (e, ['\n'])) :
    Document.from_str input = some (⟨[e]⟩, []) := by
  have hlen : 1 < input.length := by
    have := from_str_consumes h
    simpa using this
  unfold Document.from_str
  obtain ⟨m, hm⟩ : ∃ m, input.length = m + 2 := ⟨input.length - 2, by omega⟩
  rw [hm]
  simp only [docElems, h]
  rw [show dropNewlines ['\n'] = ([] : List Char) from rfl]
  simp [docElems, from_str_nil]

theorem parse_eq_doc (l : List Char) :
    parse (String.mk l) =
      match Document.from_str (if l.getLast? = some '\n' then l else l ++ "\n".toList) with
      | none => none
      | some (d, _) => some d := rfl

/-! ## Claims -/

/-- C9: for every input that begins with a bare newline, `parse` fails:
blank-line separators are consumed only after a successful element match,
never before the first element.  (This holds for any input starting with a
newline, in particular one followed by a non-blank line.) -/
theorem c9_leading_blank_line_fails (rest : List Char) :
    parse (String.mk ('\n' :: rest)) = none := by
  rw [parse_eq_doc]
  by_cases hn : ('\n' :: rest).getLast? = some '\n'
  · rw [if_pos hn, doc_from_str_head_newline]
  · rw [if_neg hn]
    rw [show (('\n' :: rest) ++ "\n".toList) = '\n' :: (rest ++ "\n".toList) from rfl]
    rw [doc_from_str_head_newline]

/-- C2 counterexample: `parse` applied to the empty string, and to a single
blank line, returns an error (`none`), not a `Document` with zero elements:
the normalised input `"\n"` is never consumed and the `eof` check fails. -/
theorem c2_empty_input_counterexample :
    parse "" = none ∧ parse "\n" = none := ⟨rfl, rfl⟩

/-- C2 (amended): `parse` applied to the empty string or to any input
consisting only of bare newline characters returns an error (`none`): no
recognizer matches a leading newline and blank separators are only skipped
after a first successful element, so the `eof` check fails. -/
theorem c2_blank_input_errors (l : List Char) (h : ∀ c ∈ l, c = '\n') :
    parse (String.mk l) = none := by
  rw [parse_eq_doc]
  cases l with
  | nil =>
    rw [if_neg (by simp)]
    rw [show (([] : List Char) ++ "\n".toList) = '\n' :: ([] : List Char) from rfl]
    rw [doc_from_str_head_newline]
  | cons c r =>
    have hc : c = '\n' := h c (List.mem_cons_self c r)
    subst hc
    by_cases hn : ('\n' :: r).getLast? = some '\n'
    · rw [if_pos hn, doc_from_str_head_newline]
    · rw [if_neg hn,
        show (('\n' :: r) ++ "\n".toList) = '\n' :: (r ++ "\n".toList) from rfl,
        doc_from_str_head_newline]

/-- Witness for C2 (amended) at the concrete blank-lines input `"\n\n"`. -/
theorem c2_blank_input_errors_witness :
    parse (String.mk ['\n', '\n']) = none :=
  c2_blank_input_errors ['\n', '\n'] (by decide)

/-- C1 counterexample: an input containing an opening fence with no closing
fence does NOT make `parse` fail; the fence line is consumed by the `text`
fallback and the parse succeeds. -/
theorem c1_unterminated_fence_counterexample :
    parse "```" = some ⟨[Element.Text "```"]⟩ ∧ parse "```" ≠ none :=
  ⟨rfl, by decide⟩

/-- C4 counterexample: the line `"=>"` parses successfully to a `Link` whose
`url` field is the empty string, so the parser does construct links with an
empty url. -/
theorem c4_empty_url_counterexample :
    parse "=>" = some ⟨[Element.Link "" none]⟩ := rfl

set_option maxRecDepth 8000 in
/-- C3 counterexample: a line of 256 `'#'` characters parses to a `Heading`
whose `level` is `0`, not `256` (the `as u8` cast truncates), so `level`
does not always equal the marker count and can be below `1`. -/
theorem c3_heading_level_counterexample :
    parse (String.mk (List.replicate 256 '#')) = some ⟨[Element.Heading 0 ""]⟩ ∧
      (0 : Nat) ≠ 256 :=
  ⟨rfl, by decide⟩

/-- C3 (amended): a heading line of `n ≥ 1` consecutive `'#'` markers parses
to a `Heading` whose `level` equals `n % 256` — the marker count truncated
by the `as u8` cast — so `level` equals `n` only for `n ≤ 255`, and a parsed
`Heading` can have `level = 0` when `n` is a positive multiple of 256. -/
theorem c3_heading_level_wraps (n : Nat) (h : 1 ≤ n) :
    parse (String.mk (List.replicate n '#')) = some ⟨[Element.Heading (n % 256) ""]⟩ := by
  obtain ⟨m, rfl⟩ : ∃ m, n = m + 1 := ⟨n - 1, by omega⟩
  rw [parse_eq_doc]
  have hrep : List.replicate (m + 1) '#' = '#' :: List.replicate m '#' :=
    List.replicate_succ ..
  have hn : (List.replicate (m + 1) '#').getLast? ≠ some '\n' := by
    intro hx
    have hmem := getLast?_mem' hx
    exact absurd (List.eq_of_mem_replicate hmem) (by decide)
  rw [if_neg hn]
  have hdrop : (List.replicate (m + 1) '#' ++ "\n".toList).drop (m + 1) = "\n".toList := by
    have hdl := List.drop_left (List.replicate (m + 1) '#') ("\n".toList)
    rw [List.length_replicate] at hdl
    exact hdl
  have hhead : Element.heading (List.replicate (m + 1) '#' ++ "\n".toList) =
      some (Element.Heading ((m + 1) % 256) "", ['\n']) := by
    unfold Element.heading
    dsimp only
    have htw : (List.replicate (m + 1) '#' ++ "\n".toList).takeWhile (fun c => c == '#') =
        List.replicate (m + 1) '#' := by
      refine takeWhile_append_of_all ?_ ?_
      · intro c hc
        rw [List.eq_of_mem_replicate hc]
        decide
      · intro c hc
        simp only [newline_toList, List.head?_cons, Option.some.injEq] at hc
        subst hc
        decide
    rw [htw, List.length_replicate]
    rw [if_neg (by omega)]
    rw [hdrop, newline_toList]
    rw [show take_until ['\n'] ['\n'] = some ([], ['\n']) from rfl]
    rfl
  have hpre : Element.preformatted (List.replicate (m + 1) '#' ++ "\n".toList) = none := by
    rw [hrep, List.cons_append]
    exact preformatted_none_of_head (by decide)
  have hlink : Element.link (List.replicate (m + 1) '#' ++ "\n".toList) = none := by
    rw [hrep, List.cons_append]
    exact link_none_of_head (by decide)
  rw [doc_single (from_str_eq_of_heading hpre hlink hhead)]

/-- Witness for C3 (amended) at the concrete heading `"###"`. -/
theorem c3_heading_level_wraps_witness :
    parse (String.mk (List.replicate 3 '#')) = some ⟨[Element.Heading (3 % 256) ""]⟩ :=
  c3_heading_level_wraps 3 (by decide)

/-- C4 (amended): rather than `url` being never empty, a link line `"=>"`
followed only by horizontal whitespace parses to `Link` with `url` the empty
string and `text` absent. -/
theorem c4_link_url_may_be_empty (ws : List Char) (h : ∀ c ∈ ws, isSpaceTab c = true) :
    parse (String.mk ('=' :: '>' :: ws)) = some ⟨[Element.Link "" none]⟩ := by
  rw [parse_eq_doc]
  have hn : ('=' :: '>' :: ws).getLast? ≠ some '\n' := by
    cases ws with
    | nil => simp
    | cons c r =>
      rw [List.getLast?_cons_cons, List.getLast?_cons_cons]
      intro hx
      have hmem := getLast?_mem' hx
      exact absurd (h '\n' hmem) (by decide)
  rw [if_neg hn]
  rw [show (('=' :: '>' :: ws) ++ "\n".toList) = '=' :: '>' :: (ws ++ ['\n']) from rfl]
  have hsp0 : (space0 (ws ++ ['\n'])).2 = ['\n'] := by
    unfold space0
    dsimp only
    refine dropWhile_append_of_all h ?_
    intro c hc
    simp only [List.head?_cons, Option.some.injEq] at hc
    subst hc
    decide
  have hwt : Element.link_with_text ('=' :: '>' :: (ws ++ ['\n'])) = none := by
    unfold Element.link_with_text
    rw [show ('=' :: '>' :: (ws ++ ['\n'])) = "=>".toList ++ (ws ++ ['\n']) from rfl,
      tag_self_append]
    dsimp only
    rw [hsp0]
    rw [show (take_till isAsciiWhitespace ['\n']).2 = ['\n'] from rfl]
    rw [show space1 ['\n'] = (none : Option (List Char × List Char)) from rfl]
  have hwo : Element.link_without_text ('=' :: '>' :: (ws ++ ['\n'])) =
      some (Element.Link "" none, ['\n']) := by
    unfold Element.link_without_text
    rw [show ('=' :: '>' :: (ws ++ ['\n'])) = "=>".toList ++ (ws ++ ['\n']) from rfl,
      tag_self_append]
    dsimp only
    rw [hsp0, newline_toList]
    rw [show take_until ['\n'] ['\n'] = some ([], ['\n']) from rfl]
    rfl
  have hlink : Element.link ('=' :: '>' :: (ws ++ ['\n'])) =
      some (Element.Link "" none, ['\n']) := by
    unfold Element.link
    rw [hwt, hwo]
  rw [doc_single (from_str_eq_of_link (preformatted_none_of_head (by decide)) hlink)]

/-- Witness for C4 (amended) at the concrete line `"=> "`. -/
theorem c4_link_url_may_be_empty_witness :
    parse (String.mk ('=' :: '>' :: [' '])) = some ⟨[Element.Link "" none]⟩ :=
  c4_link_url_may_be_empty [' '] (by decide)

/-- C10: a line consisting only of spaces and tabs is not skipped as a blank
separator: `parse` succeeds and produces a `Text` element whose content is
the empty string (the line is claimed by the `text` fallback and trimmed to
nothing). -/
theorem c10_whitespace_only_line (l : List Char) (h1 : l ≠ [])
    (h2 : ∀ c ∈ l, c = ' ' ∨ c = '\t') :
    parse (String.mk l) = some ⟨[Element.Text ""]⟩ := by
  have hst : ∀ c ∈ l, isSpaceTab c = true := by
    intro c hc
    rcases h2 c hc with rfl | rfl <;> decide
  rw [parse_eq_doc]
  have hn : l.getLast? ≠ some '\n' := by
    intro hx
    rcases h2 '\n' (getLast?_mem' hx) with h' | h' <;> exact absurd h' (by decide)
  rw [if_neg hn]
  obtain ⟨d, r, rfl⟩ : ∃ d r, l = d :: r := by
    cases l with
    | nil => exact absurd rfl h1
    | cons d r => exact ⟨d, r, rfl⟩
  have hd := h2 d (List.mem_cons_self d r)
  have hd1 : d ≠ '\x60' := by rcases hd with rfl | rfl <;> decide
  have hd2 : d ≠ '=' := by rcases hd with rfl | rfl <;> decide
  have hd3 : d ≠ '#' := by rcases hd with rfl | rfl <;> decide
  have hd4 : d ≠ '*' := by rcases hd with rfl | rfl <;> decide
  have hd5 : d ≠ '>' := by rcases hd with rfl | rfl <;> decide
  have hd6 : d ≠ '\n' := by rcases hd with rfl | rfl <;> decide
  rw [show ((d :: r) ++ "\n".toList) = d :: (r ++ ['\n']) from rfl]
  have htk : (r ++ ['\n']).takeWhile (fun c => c != '\n') = r := by
    refine takeWhile_append_of_all ?_ ?_
    · intro c hc
      rcases h2 c (List.mem_cons_of_mem d hc) with rfl | rfl <;> decide
    · intro c hc
      simp only [List.head?_cons, Option.some.injEq] at hc
      subst hc
      decide
  have hdr : (r ++ ['\n']).dropWhile (fun c => c != '\n') = ['\n'] := by
    refine dropWhile_append_of_all ?_ ?_
    · intro c hc
      rcases h2 c (List.mem_cons_of_mem d hc) with rfl | rfl <;> decide
    · intro c hc
      simp only [List.head?_cons, Option.some.injEq] at hc
      subst hc
      decide
  have hfs : Element.from_str (d :: (r ++ ['\n'])) = some (Element.Text "", ['\n']) := by
    rw [from_str_eq_text_of_fail (preformatted_none_of_head hd1) (link_none_of_head hd2)
      (heading_none_of_head hd3) (unordered_list_item_none_of_head hd4)
      (quote_none_of_head hd5)]
    rw [text_some_of_head hd6, htk, hdr]
    rw [trim_nil_of_all_ws (fun c hc => spaceTab_rustWs (hst c hc))]
  rw [doc_single hfs]

/-- Witness for C10 at the concrete two-space line `"  "`. -/
theorem c10_whitespace_only_line_witness :
    parse (String.mk [' ', ' ']) = some ⟨[Element.Text ""]⟩ :=
  c10_whitespace_only_line [' ', ' '] (by decide) (by decide)

/-- C8: whenever the preformatted rule succeeds, its content extends exactly
up to the *first* occurrence of the closing fence token in the text after
the opening fence line: the captured content never contains the delimiter
substring, and no earlier split of the scanned text starts with the
delimiter (a non-greedy, first-occurrence scan), even when further
occurrences exist later in the input. -/
theorem c8_preformatted_stops_at_first_fence (input : List Char) (el : Element)
    (rest : List Char) (h : Element.preformatted input = some (el, rest)) :
    ∃ caption content pre,
      el = Element.Preformatted caption ((rustLines content).map String.mk) ∧
      input = pre ++ content ++ "```".toList ++ rest ∧
      ¬ ("```".toList <:+: content) ∧
      ∀ p q, content ++ "```".toList ++ rest = p ++ q → "```".toList <+: q →
        content.length ≤ p.length := by
  unfold Element.preformatted at h
  cases hs : Element.preformatted_start input with
  | none => rw [hs] at h; cases h
  | some pr =>
    obtain ⟨cap, r1⟩ := pr
    rw [hs] at h
    dsimp only at h
    obtain ⟨-, hr1suf⟩ := preformatted_start_suffix hs
    cases ht : tag ("\n".toList) r1 with
    | none => rw [ht] at h; cases h
    | some pr2 =>
      obtain ⟨o, r2⟩ := pr2
      rw [ht] at h
      dsimp only at h
      obtain ⟨-, hr1⟩ := tag_some_iff.mp ht
      cases hu : take_until ("```".toList) r2 with
      | none => rw [hu] at h; cases h
      | some pr3 =>
        obtain ⟨content, r3⟩ := pr3
        rw [hu] at h
        dsimp only at h
        obtain ⟨hu1, -, hu3⟩ := take_until_spec hu
        have hnoinf := take_until_pre_no_occurrence (by decide) hu
        cases ht2 : tag ("```".toList) r3 with
        | none => rw [ht2] at h; cases h
        | some pr4 =>
          obtain ⟨o2, r4⟩ := pr4
          rw [ht2] at h
          dsimp only at h
          obtain ⟨-, hr3⟩ := tag_some_iff.mp ht2
          injection h with h
          injection h with h1 h2
          obtain ⟨pre0, hpre0⟩ := hr1suf
          have hr2 : r2 = content ++ "```".toList ++ rest := by
            rw [hu1, hr3, h2]
            simp [List.append_assoc]
          refine ⟨cap, content, pre0 ++ ['\n'], h1.symm, ?_, hnoinf, ?_⟩
          · rw [← hpre0, hr1, hr2, newline_toList]
            simp [List.append_assoc]
          · intro p q hpq hq
            exact hu3 p q (by rw [hr2]; exact hpq) hq

/-- Witness for C8 at the concrete block `"```\nA\n```x```"`, whose trailing
text contains a second fence. -/
theorem c8_preformatted_stops_at_first_fence_witness :
    ∃ caption content pre,
      Element.Preformatted none ["A"] =
        Element.Preformatted caption ((rustLines content).map String.mk) ∧
      ("```\nA\n```x```".toList : List Char) =
        pre ++ content ++ "```".toList ++ "x```".toList ∧
      ¬ ("```".toList <:+: content) ∧
      ∀ p q, content ++ "```".toList ++ "x```".toList = p ++ q → "```".toList <+: q →
        content.length ≤ p.length :=
  c8_preformatted_stops_at_first_fence ("```\nA\n```x```".toList)
    (Element.Preformatted none ["A"]) ("x```".toList) (by rfl)

/-- C5 counterexample: for a preformatted block whose content ends with a
newline immediately before the closing fence, `lines` does NOT contain a
trailing empty segment: `parse("```\nA\n```")` yields `lines = ["A"]`, not
`["A", ""]`. -/
theorem c5_trailing_newline_counterexample :
    parse "```\nA\n```" = some ⟨[Element.Preformatted none ["A"]]⟩ ∧
      (["A"] : List String) ≠ ["A", ""] :=
  ⟨rfl, by decide⟩

/-- C5 (amended): the `lines` of a preformatted block are the
newline-separated segments of the fence-delimited content, except that when
the content ends with a newline immediately before the closing fence the
final empty segment is dropped (Rust `str::lines`), so there is no trailing
empty segment. -/
theorem c5_no_trailing_empty_segment (input : List Char) (cap : Option String)
    (lines : List String) (rest : List Char)
    (h : Element.preformatted input = some (Element.Preformatted cap lines, rest)) :
    ∃ content pre,
      input = pre ++ content ++ "```".toList ++ rest ∧
      lines = (rustLines content).map String.mk ∧
      (content.getLast? = some '\n' →
        lines = ((splitNewline content).dropLast).map
          (fun l => String.mk (stripTrailingCR l))) := by
  unfold Element.preformatted at h
  cases hs : Element.preformatted_start input with
  | none => rw [hs] at h; cases h
  | some pr =>
    obtain ⟨cap0, r1⟩ := pr
    rw [hs] at h
    dsimp only at h
    obtain ⟨-, hr1suf⟩ := preformatted_start_suffix hs
    cases ht : tag ("\n".toList) r1 with
    | none => rw [ht] at h; cases h
    | some pr2 =>
      obtain ⟨o, r2⟩ := pr2
      rw [ht] at h
      dsimp only at h
      obtain ⟨-, hr1⟩ := tag_some_iff.mp ht
      cases hu : take_until ("```".toList) r2 with
      | none => rw [hu] at h; cases h
      | some pr3 =>
        obtain ⟨content, r3⟩ := pr3
        rw [hu] at h
        dsimp only at h
        obtain ⟨hu1, -, -⟩ := take_until_spec hu
        cases ht2 : tag ("```".toList) r3 with
        | none => rw [ht2] at h; cases h
        | some pr4 =>
          obtain ⟨o2, r4⟩ := pr4
          rw [ht2] at h
          dsimp only at h
          obtain ⟨-, hr3⟩ := tag_some_iff.mp ht2
          injection h with h
          injection h with h1 h2
          injection h1 with hcap hlines
          obtain ⟨pre0, hpre0⟩ := hr1suf
          refine ⟨content, pre0 ++ ['\n'], ?_, hlines.symm, ?_⟩
          · rw [← hpre0, hr1, hu1, hr3, h2, newline_toList]
            simp [List.append_assoc]
          · intro hlast
            have hne : ¬ (content.isEmpty = true) := by
              intro hc
              rw [List.isEmpty_iff.mp hc] at hlast
              simp at hlast
            rw [← hlines]
            unfold rustLines
            rw [if_neg hne]
            dsimp only
            rw [if_pos hlast]
            simp only [List.map_map]
            rfl

/-- Witness for C5 (amended) at the concrete block `"```\nA\n```\n"`. -/
theorem c5_no_trailing_empty_segment_witness :
    ∃ content pre,
      ("```\nA\n```\n".toList : List Char) = pre ++ content ++ "```".toList ++ ['\n'] ∧
      (["A"] : List String) = (rustLines content).map String.mk ∧
      (content.getLast? = some '\n' →
        (["A"] : List String) = ((splitNewline content).dropLast).map
          (fun l => String.mk (stripTrailingCR l))) :=
  c5_no_trailing_empty_segment ("```\nA\n```\n".toList) none ["A"] ['\n'] (by rfl)

/-- When no closing fence token occurs anywhere after the opening fence, the
preformatted rule fails at that position (whether or not a caption line can
be isolated). -/
theorem preformatted_none_of_no_fence {cs : List Char}
    (h : ¬ ("```".toList <:+: cs)) :
    Element.preformatted ("```".toList ++ cs) = none := by
  unfold Element.preformatted Element.preformatted_start
  rw [tag_self_append]
  dsimp only
  cases hu : take_until ("\n".toList) (space0 cs).2 with
  | some pr =>
    obtain ⟨c, rest'⟩ := pr
    dsimp only
    obtain ⟨hu1, hu2, -⟩ := take_until_spec hu
    obtain ⟨r2', hr2'⟩ := hu2
    rw [← hr2', tag_self_append]
    dsimp only
    have hsuf : r2' <:+ cs := by
      have s1 : rest' <:+ (space0 cs).2 := take_until_post_suffix hu
      have s2 : (space0 cs).2 <:+ cs := List.dropWhile_suffix isSpaceTab
      have s3 : r2' <:+ rest' := ⟨"\n".toList, hr2'⟩
      exact (s3.trans s1).trans s2
    rw [take_until_fails_of_absent (fun hi => h (hi.trans hsuf.isInfix))]
  | none =>
    dsimp only
    cases htag : tag ("\n".toList) cs with
    | none => rfl
    | some pr =>
      exfalso
      obtain ⟨o', r''⟩ := pr
      obtain ⟨-, hcs⟩ := tag_some_iff.mp htag
      rw [hcs] at hu
      have hsp : (space0 ("\n".toList ++ r'')).2 = '\n' :: r'' := by
        unfold space0
        dsimp only
        rw [show ("\n".toList ++ r'') = '\n' :: r'' from rfl]
        exact List.dropWhile_cons_of_neg (by decide)
      rw [hsp] at hu
      unfold take_until at hu
      rw [if_pos] at hu
      · cases hu
      · refine List.isPrefixOf_iff_prefix.mpr ?_
        rw [newline_toList]
        exact List.cons_prefix_cons.mpr ⟨rfl, List.nil_prefix⟩

/-- C1 (amended): when an opening fence has no matching closing fence
anywhere after it, the preformatted rule fails, but `parse` does NOT
necessarily fail: the dispatcher falls through to the `text` fallback, which
consumes the fence line as an ordinary `Text` element (the fence line IS
reinterpreted by another rule). -/
theorem c1_unterminated_fence_amended (cs : List Char)
    (h : ¬ ("```".toList <:+: cs)) :
    ∃ rest, Element.from_str ("```".toList ++ cs) =
      some (Element.Text (String.mk (trim (("```".toList ++ cs).takeWhile
        (fun c => c != '\n')))), rest) := by
  have hshape : "```".toList ++ cs = '\x60' :: ('\x60' :: '\x60' :: cs) := rfl
  have hpre := preformatted_none_of_no_fence h
  have hl : Element.link ("```".toList ++ cs) = none := by
    rw [hshape]
    exact link_none_of_head (by decide)
  have hh : Element.heading ("```".toList ++ cs) = none := by
    rw [hshape]
    exact heading_none_of_head (by decide)
  have hui : Element.unordered_list_item ("```".toList ++ cs) = none := by
    rw [hshape]
    exact unordered_list_item_none_of_head (by decide)
  have hq : Element.quote ("```".toList ++ cs) = none := by
    rw [hshape]
    exact quote_none_of_head (by decide)
  refine ⟨("```".toList ++ cs).dropWhile (fun c => c != '\n'), ?_⟩
  rw [from_str_eq_text_of_fail hpre hl hh hui hq]
  rw [hshape, text_some_of_head (by decide)]
  have hpk : ∀ l : List Char, List.takeWhile (fun c => c != '\n') ('\x60' :: l) =
      '\x60' :: List.takeWhile (fun c => c != '\n') l :=
    fun l => List.takeWhile_cons_of_pos (by decide)
  have hpk2 : ∀ l : List Char, List.dropWhile (fun c => c != '\n') ('\x60' :: l) =
      List.dropWhile (fun c => c != '\n') l :=
    fun l => List.dropWhile_cons_of_pos (by decide)
  repeat rw [hpk]
  repeat rw [hpk2]

/-- Witness for C1 (amended) at the concrete unterminated input
`"```" ++ "\nhi"`. -/
theorem c1_unterminated_fence_amended_witness :
    ∃ rest, Element.from_str ("```".toList ++ "\nhi".toList) =
      some (Element.Text (String.mk (trim (("```".toList ++ "\nhi".toList).takeWhile
        (fun c => c != '\n')))), rest) :=
  c1_unterminated_fence_amended ("\nhi".toList) (by decide)

/-- C6: the dispatcher tries the recognizers in the fixed order
preformatted, link, heading, unordered list item, quote, text, and returns
the first success (this order is the definition of `Element.from_str`).
Consequently a line starting with the `=>` marker (with a newline somewhere
after it, as guaranteed inside a document) is always consumed as a `Link`
element, never as `Text`; in particular `"=> x"` parses to a `Link`. -/
theorem c6_link_priority :
    (∀ cs : List Char, '\n' ∈ cs →
      ∃ url t rest, Element.from_str ('=' :: '>' :: cs) =
        some (Element.Link url t, rest)) ∧
    parse "=> x" = some ⟨[Element.Link "x" none]⟩ := by
  refine ⟨?_, rfl⟩
  intro cs hmem
  have hpre : Element.preformatted ('=' :: '>' :: cs) = none :=
    preformatted_none_of_head (by decide)
  cases hw : Element.link_with_text ('=' :: '>' :: cs) with
  | some r =>
    obtain ⟨el, rest⟩ := r
    obtain ⟨u, t', rfl⟩ := link_with_text_shape hw
    have hlink : Element.link ('=' :: '>' :: cs) =
        some (Element.Link u (some t'), rest) := by
      unfold Element.link
      rw [hw]
    exact ⟨u, some t', rest, from_str_eq_of_link hpre hlink⟩
  | none =>
    have hmem2 : '\n' ∈ (space0 cs).2 := by
      unfold space0
      dsimp only
      exact mem_dropWhile_of_mem hmem (by decide)
    obtain ⟨pre, post, hp⟩ := take_until_singleton_of_mem hmem2
    have hwo : Element.link_without_text ('=' :: '>' :: cs) =
        some (Element.Link (String.mk (trim pre)) none, post) := by
      unfold Element.link_without_text
      rw [show ('=' :: '>' :: cs) = "=>".toList ++ cs from rfl, tag_self_append]
      dsimp only
      rw [newline_toList, hp]
    have hlink : Element.link ('=' :: '>' :: cs) =
        some (Element.Link (String.mk (trim pre)) none, post) := by
      unfold Element.link
      rw [hw, hwo]
    exact ⟨String.mk (trim pre), none, post, from_str_eq_of_link hpre hlink⟩

/-- Witness for C6 at the concrete link line `"=> x\n"`. -/
theorem c6_link_priority_witness :
    ∃ url t rest, Element.from_str ('=' :: '>' :: (" x\n".toList)) =
      some (Element.Link url t, rest) :=
  c6_link_priority.1 (" x\n".toList) (by decide)

/-- If the head of a list fails a predicate, so does anything its `head?`
returns. -/
theorem head_not_pred_of {p : Char → Bool} {u0 : Char} {rest : List Char}
    (h : p u0 = false) :
    ∀ c, (u0 :: rest).head? = some c → p c = false := by
  intro c hc
  rw [List.head?_cons] at hc
  injection hc with hc
  subst hc
  exact h

theorem not_spaceTab_of_not_rustWs {c : Char} (h : rustIsWhitespace c = false) :
    isSpaceTab c = false := by
  cases hst : isSpaceTab c
  · rfl
  · rw [spaceTab_rustWs hst] at h
    cases h

theorem not_asciiWs_of_not_rustWs {c : Char} (h : rustIsWhitespace c = false) :
    isAsciiWhitespace c = false := by
  cases hst : isAsciiWhitespace c
  · rfl
  · rw [asciiWs_rustWs hst] at h
    cases h

/-- The with-text link sub-form on a line `=>`, optional spaces, a
non-whitespace url token, a space/tab separator run, and trailing text. -/
theorem link_with_text_full (ws0 url sep t : List Char)
    (hws0 : ∀ c ∈ ws0, isSpaceTab c = true)
    (hurlne : url ≠ []) (hurl : ∀ c ∈ url, rustIsWhitespace c = false)
    (hsepne : sep ≠ []) (hsep : ∀ c ∈ sep, isSpaceTab c = true)
    (htne : t ≠ []) (ht0 : ∀ c, t.head? = some c → isSpaceTab c = false)
    (hnl : '\n' ∉ t) :
    Element.link_with_text ('=' :: '>' :: (ws0 ++ (url ++ (sep ++ (t ++ ['\n']))))) =
      some (Element.Link (String.mk url) (some (String.mk (trim t))), ['\n']) := by
  obtain ⟨u0, url', rfl⟩ : ∃ u0 url', url = u0 :: url' := by
    cases url with
    | nil => exact absurd rfl hurlne
    | cons a b => exact ⟨a, b, rfl⟩
  obtain ⟨s0, sep', rfl⟩ : ∃ s0 sep', sep = s0 :: sep' := by
    cases sep with
    | nil => exact absurd rfl hsepne
    | cons a b => exact ⟨a, b, rfl⟩
  obtain ⟨t0, t', rfl⟩ : ∃ t0 t', t = t0 :: t' := by
    cases t with
    | nil => exact absurd rfl htne
    | cons a b => exact ⟨a, b, rfl⟩
  have hu0 := hurl u0 (List.mem_cons_self ..)
  have hs0 := hsep s0 (List.mem_cons_self ..)
  have ht00 : isSpaceTab t0 = false := ht0 t0 rfl
  unfold Element.link_with_text
  rw [show ('=' :: '>' :: (ws0 ++ ((u0 :: url') ++ ((s0 :: sep') ++ ((t0 :: t') ++ ['\n']))))) =
    "=>".toList ++ (ws0 ++ ((u0 :: url') ++ ((s0 :: sep') ++ ((t0 :: t') ++ ['\n']))))
    from rfl, tag_self_append]
  dsimp only
  have hsp0 : (space0 (ws0 ++ ((u0 :: url') ++ ((s0 :: sep') ++ ((t0 :: t') ++ ['\n']))))).2 =
      (u0 :: url') ++ ((s0 :: sep') ++ ((t0 :: t') ++ ['\n'])) := by
    unfold space0
    dsimp only
    exact dropWhile_append_of_all hws0 (head_not_pred_of (not_spaceTab_of_not_rustWs hu0))
  rw [hsp0]
  unfold take_till
  dsimp only
  have htk : ((u0 :: url') ++ ((s0 :: sep') ++ ((t0 :: t') ++ ['\n']))).takeWhile
      (fun c => !isAsciiWhitespace c) = u0 :: url' := by
    refine takeWhile_append_of_all ?_ ?_
    · intro c hc
      simp [not_asciiWs_of_not_rustWs (hurl c hc)]
    · intro c hc
      rw [show ((s0 :: sep') ++ ((t0 :: t') ++ ['\n'])).head? = some s0 from rfl] at hc
      injection hc with hc
      subst hc
      simp [spaceTab_asciiWs hs0]
  have hdk : ((u0 :: url') ++ ((s0 :: sep') ++ ((t0 :: t') ++ ['\n']))).dropWhile
      (fun c => !isAsciiWhitespace c) = (s0 :: sep') ++ ((t0 :: t') ++ ['\n']) := by
    refine dropWhile_append_of_all ?_ ?_
    · intro c hc
      simp [not_asciiWs_of_not_rustWs (hurl c hc)]
    · intro c hc
      rw [show ((s0 :: sep') ++ ((t0 :: t') ++ ['\n'])).head? = some s0 from rfl] at hc
      injection hc with hc
      subst hc
      simp [spaceTab_asciiWs hs0]
  rw [htk, hdk]
  have hs1 : space1 ((s0 :: sep') ++ ((t0 :: t') ++ ['\n'])) =
      some (s0 :: sep', (t0 :: t') ++ ['\n']) := by
    unfold space1
    have htks : ((s0 :: sep') ++ ((t0 :: t') ++ ['\n'])).takeWhile isSpaceTab = s0 :: sep' :=
      takeWhile_append_of_all hsep (head_not_pred_of ht00)
    have hdrs : ((s0 :: sep') ++ ((t0 :: t') ++ ['\n'])).dropWhile isSpaceTab =
        (t0 :: t') ++ ['\n'] :=
      dropWhile_append_of_all hsep (head_not_pred_of ht00)
    rw [htks, hdrs, if_neg (by simp)]
  rw [hs1]
  dsimp only
  rw [newline_toList, take_until_append_singleton ([] : List Char) hnl]
  dsimp only
  rw [trim_eq_self_of_no_ws hurl]

/-- The link rule on a line `=>`, optional spaces, and a url token with no
whitespace at all after it: the with-text sub-form fails (no separator) and
the without-text sub-form produces `text: None`. -/
theorem link_no_separator (ws0 url : List Char)
    (hws0 : ∀ c ∈ ws0, isSpaceTab c = true)
    (hurlne : url ≠ []) (hurl : ∀ c ∈ url, rustIsWhitespace c = false) :
    Element.link ('=' :: '>' :: (ws0 ++ (url ++ ['\n']))) =
      some (Element.Link (String.mk url) none, ['\n']) := by
  obtain ⟨u0, url', rfl⟩ : ∃ u0 url', url = u0 :: url' := by
    cases url with
    | nil => exact absurd rfl hurlne
    | cons a b => exact ⟨a, b, rfl⟩
  have hu0 := hurl u0 (List.mem_cons_self ..)
  have hnlurl : '\n' ∉ (u0 :: url') := by
    intro hm
    exact absurd (hurl '\n' hm) (by decide)
  have hsp0 : (space0 (ws0 ++ ((u0 :: url') ++ ['\n']))).2 = (u0 :: url') ++ ['\n'] := by
    unfold space0
    dsimp only
    exact dropWhile_append_of_all hws0 (head_not_pred_of (not_spaceTab_of_not_rustWs hu0))
  have hwt : Element.link_with_text ('=' :: '>' :: (ws0 ++ ((u0 :: url') ++ ['\n']))) =
      none := by
    unfold Element.link_with_text
    rw [show ('=' :: '>' :: (ws0 ++ ((u0 :: url') ++ ['\n']))) =
      "=>".toList ++ (ws0 ++ ((u0 :: url') ++ ['\n'])) from rfl, tag_self_append]
    dsimp only
    rw [hsp0]
    unfold take_till
    dsimp only
    have hdk : ((u0 :: url') ++ ['\n']).dropWhile (fun c => !isAsciiWhitespace c) = ['\n'] := by
      refine dropWhile_append_of_all ?_ ?_
      · intro c hc
        simp [not_asciiWs_of_not_rustWs (hurl c hc)]
      · intro c hc
        rw [List.head?_cons] at hc
        injection hc with hc
        subst hc
        decide
    rw [hdk]
    rw [show space1 ['\n'] = (none : Option (List Char × List Char)) from rfl]
  unfold Element.link
  rw [hwt]
  unfold Element.link_without_text
  rw [show ('=' :: '>' :: (ws0 ++ ((u0 :: url') ++ ['\n']))) =
    "=>".toList ++ (ws0 ++ ((u0 :: url') ++ ['\n'])) from rfl, tag_self_append]
  dsimp only
  rw [hsp0, newline_toList, take_until_append_singleton ([] : List Char) hnlurl]
  dsimp only
  rw [trim_eq_self_of_no_ws hurl]

set_option maxRecDepth 8000 in
/-- C7: a link line whose remainder after the `=>` marker (and optional
horizontal whitespace) is a non-whitespace url token, at least one
space/tab, and further text yields `Link` with `text = Some(remainder
trimmed)`; a link line whose remainder contains no such separator (a url
token with no whitespace after it) yields `Link` with `text = None`.  In
particular `"=> https://example.com"` gives `text = None` and
`"=> https://example.com Example"` gives `text = Some "Example"`. -/
theorem c7_link_text_forms :
    (∀ ws0 url sep t : List Char,
      (∀ c ∈ ws0, isSpaceTab c = true) →
      url ≠ [] → (∀ c ∈ url, rustIsWhitespace c = false) →
      sep ≠ [] → (∀ c ∈ sep, isSpaceTab c = true) →
      t ≠ [] → (∀ c, t.head? = some c → isSpaceTab c = false) → '\n' ∉ t →
      parse (String.mk ('=' :: '>' :: (ws0 ++ (url ++ (sep ++ t))))) =
        some ⟨[Element.Link (String.mk url) (some (String.mk (trim t)))]⟩) ∧
    (∀ ws0 url : List Char,
      (∀ c ∈ ws0, isSpaceTab c = true) →
      url ≠ [] → (∀ c ∈ url, rustIsWhitespace c = false) →
      parse (String.mk ('=' :: '>' :: (ws0 ++ url))) =
        some ⟨[Element.Link (String.mk url) none]⟩) ∧
    parse "=> https://example.com" = some ⟨[Element.Link "https://example.com" none]⟩ ∧
    parse "=> https://example.com Example" =
      some ⟨[Element.Link "https://example.com" (some "Example")]⟩ := by
  refine ⟨?_, ?_, rfl, rfl⟩
  · intro ws0 url sep t hws0 hurlne hurl hsepne hsep htne ht0 hnl
    rw [parse_eq_doc]
    have hne3 : sep ++ t ≠ [] := by
      intro hc
      rw [List.append_eq_nil] at hc
      exact hsepne hc.1
    have hne2 : url ++ (sep ++ t) ≠ [] := by
      intro hc
      rw [List.append_eq_nil] at hc
      exact hurlne hc.1
    have hne1 : ws0 ++ (url ++ (sep ++ t)) ≠ [] := by
      intro hc
      rw [List.append_eq_nil] at hc
      exact hne2 hc.2
    have hn : ('=' :: '>' :: (ws0 ++ (url ++ (sep ++ t)))).getLast? ≠ some '\n' := by
      rw [show ('=' :: '>' :: (ws0 ++ (url ++ (sep ++ t)))) =
        ['=', '>'] ++ (ws0 ++ (url ++ (sep ++ t))) from rfl,
        List.getLast?_append_of_ne_nil _ hne1,
        List.getLast?_append_of_ne_nil _ hne2,
        List.getLast?_append_of_ne_nil _ hne3,
        List.getLast?_append_of_ne_nil _ htne]
      intro hx
      exact hnl (getLast?_mem' hx)
    rw [if_neg hn]
    have hshape : (('=' :: '>' :: (ws0 ++ (url ++ (sep ++ t)))) ++ "\n".toList) =
        '=' :: '>' :: (ws0 ++ (url ++ (sep ++ (t ++ ['\n'])))) := by
      simp [List.append_assoc, newline_toList]
    rw [hshape]
    have hwt := link_with_text_full ws0 url sep t hws0 hurlne hurl hsepne hsep htne ht0 hnl
    have hlink : Element.link ('=' :: '>' :: (ws0 ++ (url ++ (sep ++ (t ++ ['\n']))))) =
        some (Element.Link (String.mk url) (some (String.mk (trim t))), ['\n']) := by
      unfold Element.link
      rw [hwt]
    rw [doc_single (from_str_eq_of_link (preformatted_none_of_head (by decide)) hlink)]
  · intro ws0 url hws0 hurlne hurl
    rw [parse_eq_doc]
    have hne1 : ws0 ++ url ≠ [] := by
      intro hc
      rw [List.append_eq_nil] at hc
      exact hurlne hc.2
    have hn : ('=' :: '>' :: (ws0 ++ url)).getLast? ≠ some '\n' := by
      rw [show ('=' :: '>' :: (ws0 ++ url)) = ['=', '>'] ++ (ws0 ++ url) from rfl,
        List.getLast?_append_of_ne_nil _ hne1,
        List.getLast?_append_of_ne_nil _ hurlne]
      intro hx
      exact absurd (hurl '\n' (getLast?_mem' hx)) (by decide)
    rw [if_neg hn]
    have hshape : (('=' :: '>' :: (ws0 ++ url)) ++ "\n".toList) =
        '=' :: '>' :: (ws0 ++ (url ++ ['\n'])) := by
      simp [List.append_assoc, newline_toList]
    rw [hshape]
    have hlink := link_no_separator ws0 url hws0 hurlne hurl
    rw [doc_single (from_str_eq_of_link (preformatted_none_of_head (by decide)) hlink)]

/-- Witness for C7 at the concrete link line `"=> u v"`. -/
theorem c7_link_text_forms_witness :
    parse (String.mk ('=' :: '>' :: ([' '] ++ (['u'] ++ ([' '] ++ ['v']))))) =
      some ⟨[Element.Link (String.mk ['u']) (some (String.mk (trim ['v'])))]⟩ :=
  c7_link_text_forms.1 [' '] ['u'] [' '] ['v'] (by decide) (by decide) (by decide)
    (by decide) (by decide) (by decide)
    (by
      intro c hc
      rw [List.head?_cons] at hc
      injection hc with hc
      subst hc
      decide)
    (by decide)
